import Mathlib

/-! Verification of the konane-engine board core.

A shallow embedding of `src/lib/konane_board/{point,board}.rs`: the three-state
cell type `Piece`, the 6×6 `Board` stored row-major in a flat 36-cell array,
its bounds-checked accessors `get_piece` / `set_piece`, and the directional
jump scan `possible_moves`.

Rust's in-place mutation is modelled by returning the updated board
(`set_piece` yields the pair of the Rust return value and the new board), the
flat `[Piece; 36]` array by a total function `Nat → Piece` read and written
only at the guarded row-major indices, the `as usize` cast of an `isize` by a
wrapping cast modulo 2^64, and the unbounded `for jump in (0..).step_by(2)`
loops by fuel-indexed recursion (fuel 3 is shown sufficient below).
-/

inductive Piece
  | EMPTY
  | WHITE
  | BLACK
deriving DecidableEq

/-- A 6 per side square playing board, containing 36 points (row-major). -/
structure Board where
  points : Nat → Piece

/-- Rust's `as usize` on an `isize`: a wrapping cast modulo 2^64
(18446744073709551616 = 2^64). -/
def usize_cast (x : Int) : Nat :=
  (x % 18446744073709551616).toNat

/-- `Board::create_empty`: a board where all cells are `EMPTY`. -/
def Board.create_empty : Board :=
  ⟨fun _ => Piece.EMPTY⟩

/-- `Board::get_piece`: bounds-guarded read at row-major index `row * 6 + col`. -/
def Board.get_piece (b : Board) (row col : Nat) : Option Piece :=
  if row > 5 ∨ col > 5 then none
  else some (b.points (row * 6 + col))

/-- `Board::set_piece`: reads the previous value via `get_piece`; on success
writes `piece_type` at the row-major index and returns the previous value.
The updated board is returned as the second component. -/
def Board.set_piece (b : Board) (row col : Nat) (piece_type : Piece) :
    Option Piece × Board :=
  match b.get_piece row col with
  | some piece =>
      (some piece, ⟨fun j => if j = row * 6 + col then piece_type else b.points j⟩)
  | none => (none, b)

/-- `impl Default for Board`: start from the empty board and, for
`i in (0..36).step_by(2)` (here `i = 2 * n`, `n < 18`), set cell `i` to
`BLACK` and cell `i + 1` to `WHITE`. -/
def Board.default : Board :=
  (List.range 18).foldl
    (fun b n =>
      ⟨fun j =>
        if j = 2 * n + 1 then Piece.WHITE
        else if j = 2 * n then Piece.BLACK
        else b.points j⟩)
    Board.create_empty

/-- The vertical inner loop of `Board::possible_moves` for step `i ∈ {-1, 1}`:
at loop variable `jump`, `from_row = row + i * jump`; break when the landing
row `from_row + i * 2` leaves `[0, 5]`; otherwise read the enemy cell at
`from_row + i` (cast `as usize`), break on `EMPTY`, record the landing cell
when it reads `some EMPTY`, and continue with `jump + 2`. The `none` arm
(out-of-range read) matches Rust's `if let Some` falling through to the next
iteration. Fuel-indexed; the Rust loop is unbounded. -/
def Board.scan_vertical (b : Board) (row col : Nat) (i : Int) :
    Nat → Int → List (Nat × Nat)
  | 0, _ => []
  | fuel + 1, jump =>
    if (row : Int) + i * jump + i * 2 < 0 ∨ (row : Int) + i * jump + i * 2 > 5 then
      []
    else
      match b.get_piece (usize_cast ((row : Int) + i * jump + i)) col with
      | some Piece.EMPTY => []
      | some _ =>
          (if b.get_piece (usize_cast ((row : Int) + i * jump + i * 2)) col
              = some Piece.EMPTY then
            [(usize_cast ((row : Int) + i * jump + i * 2), col)]
          else []) ++ b.scan_vertical row col i fuel (jump + 2)
      | none => b.scan_vertical row col i fuel (jump + 2)

/-- The horizontal inner loop of `Board::possible_moves`, mirror image of
`scan_vertical` along the column axis. -/
def Board.scan_horizontal (b : Board) (row col : Nat) (i : Int) :
    Nat → Int → List (Nat × Nat)
  | 0, _ => []
  | fuel + 1, jump =>
    if (col : Int) + i * jump + i * 2 < 0 ∨ (col : Int) + i * jump + i * 2 > 5 then
      []
    else
      match b.get_piece row (usize_cast ((col : Int) + i * jump + i)) with
      | some Piece.EMPTY => []
      | some _ =>
          (if b.get_piece row (usize_cast ((col : Int) + i * jump + i * 2))
              = some Piece.EMPTY then
            [(row, usize_cast ((col : Int) + i * jump + i * 2))]
          else []) ++ b.scan_horizontal row col i fuel (jump + 2)
      | none => b.scan_horizontal row col i fuel (jump + 2)

/-- `Board::possible_moves` with explicit fuel for each directional loop:
guard the source coordinate via `get_piece`, then scan vertical `i = -1`,
vertical `i = 1`, horizontal `i = -1`, horizontal `i = 1`, appending the
recorded destinations in that order. -/
def Board.possible_movesFuel (b : Board) (row col : Nat) (fuel : Nat) :
    Option (List (Nat × Nat)) :=
  match b.get_piece row col with
  | none => none
  | some _ =>
      some (b.scan_vertical row col (-1) fuel 0 ++ b.scan_vertical row col 1 fuel 0 ++
        b.scan_horizontal row col (-1) fuel 0 ++ b.scan_horizontal row col 1 fuel 0)

/-- `Board::possible_moves`: fuel 3 covers the loop (jumps 0, 2, 4; the scan
always breaks by jump 4 on a 6-wide board, as proved below). -/
def Board.possible_moves (b : Board) (row col : Nat) : Option (List (Nat × Nat)) :=
  b.possible_movesFuel row col 3

/-- The board of spec §8 Scenario C, built exactly as the doc example of
`Board::possible_moves` builds it: Black at (0,0), White at (0,1),
Black at (0,2), Black at (0,4) on an empty board. -/
def scenario_c_board : Board :=
  ((((Board.create_empty.set_piece 0 0 Piece.BLACK).2.set_piece 0 1 Piece.WHITE).2.set_piece
      0 2 Piece.BLACK).2.set_piece 0 4 Piece.BLACK).2

/-! ## Basic shape lemmas for the accessors -/

lemma get_piece_in_range (b : Board) (row col : Nat) (h : ¬(row > 5 ∨ col > 5)) :
    b.get_piece row col = some (b.points (row * 6 + col)) := by
  unfold Board.get_piece
  rw [if_neg h]

lemma get_piece_out_of_range (b : Board) (row col : Nat) (h : row > 5 ∨ col > 5) :
    b.get_piece row col = none := by
  unfold Board.get_piece
  rw [if_pos h]

lemma get_piece_some_bounds (b : Board) (row col : Nat) (p : Piece)
    (h : b.get_piece row col = some p) : row ≤ 5 ∧ col ≤ 5 := by
  by_contra hc
  rw [get_piece_out_of_range b row col (by omega)] at h
  cases h

lemma set_piece_in_range (b : Board) (row col : Nat) (s : Piece)
    (h : ¬(row > 5 ∨ col > 5)) :
    b.set_piece row col s =
      (some (b.points (row * 6 + col)),
        ⟨fun j => if j = row * 6 + col then s else b.points j⟩) := by
  unfold Board.set_piece
  rw [get_piece_in_range b row col h]

lemma set_piece_out_of_range (b : Board) (row col : Nat) (s : Piece)
    (h : row > 5 ∨ col > 5) : b.set_piece row col s = (none, b) := by
  unfold Board.set_piece
  rw [get_piece_out_of_range b row col h]

/-! ## Claim theorems: accessors -/

/-- C2: for every board and every pair of coordinates, `get_piece` and
`possible_moves` return `none` exactly when `row > 5` or `col > 5`; in
particular an in-range source (even an `EMPTY` one) always yields `some`. -/
theorem get_and_possible_moves_none_iff_out_of_range (b : Board) (row col : Nat) :
    (b.get_piece row col = none ↔ row > 5 ∨ col > 5) ∧
    (b.possible_moves row col = none ↔ row > 5 ∨ col > 5) := by
  have hg : b.get_piece row col = none ↔ row > 5 ∨ col > 5 := by
    by_cases h : row > 5 ∨ col > 5
    · rw [get_piece_out_of_range b row col h]
      simp [h]
    · rw [get_piece_in_range b row col h]
      simp [h]
  refine ⟨hg, ?_⟩
  unfold Board.possible_moves Board.possible_movesFuel
  cases h : b.get_piece row col with
  | none => simpa using hg.mp h
  | some p =>
      constructor
      · intro hc
        cases hc
      · intro hoob
        rw [hg.mpr hoob] at h
        cases h

/-- C4: on the Scenario C board (Black (0,0), White (0,1), Black (0,2),
Black (0,4) on an empty board), `possible_moves 0 1` returns exactly
`[(0, 3), (0, 5)]`: the scan continues past the recorded landing (0,3) and
reports the chained destination (0,5) two jumps away. -/
theorem scenario_c_possible_moves :
    scenario_c_board.possible_moves 0 1 = some [(0, 3), (0, 5)] := by decide

/-- C5: for an in-range coordinate, `set_piece` returns `some` of the cell's
previous state and a subsequent `get_piece` at the same coordinate returns
the newly written piece. -/
theorem set_then_get_in_range (b : Board) (row col : Nat) (s : Piece)
    (hr : row ≤ 5) (hc : col ≤ 5) :
    (b.set_piece row col s).1 = some (b.points (row * 6 + col)) ∧
    ((b.set_piece row col s).2).get_piece row col = some s := by
  rw [set_piece_in_range b row col s (by omega)]
  refine ⟨rfl, ?_⟩
  rw [get_piece_in_range _ row col (by omega)]
  simp

theorem set_then_get_in_range_witness :
    (2 : Nat) ≤ 5 ∧ (3 : Nat) ≤ 5 ∧
    ((Board.create_empty.set_piece 2 3 Piece.WHITE).1
        = some (Board.create_empty.points (2 * 6 + 3)) ∧
      ((Board.create_empty.set_piece 2 3 Piece.WHITE).2).get_piece 2 3
        = some Piece.WHITE) :=
  ⟨by decide, by decide,
    set_then_get_in_range Board.create_empty 2 3 Piece.WHITE (by decide) (by decide)⟩

/-- C6: for an out-of-range coordinate, `set_piece` returns `none` and the
board is unchanged: every cell reads the same through `get_piece` afterwards. -/
theorem set_out_of_range_no_mutation (b : Board) (row col : Nat) (s : Piece)
    (h : row > 5 ∨ col > 5) :
    (b.set_piece row col s).1 = none ∧
    ∀ r c : Nat, ((b.set_piece row col s).2).get_piece r c = b.get_piece r c := by
  rw [set_piece_out_of_range b row col s h]
  exact ⟨rfl, fun r c => rfl⟩

theorem set_out_of_range_no_mutation_witness :
    ((6 : Nat) > 5 ∨ (0 : Nat) > 5) ∧
    (Board.create_empty.set_piece 6 0 Piece.BLACK).1 = none ∧
    ((Board.create_empty.set_piece 6 0 Piece.BLACK).2).get_piece 0 0
      = Board.create_empty.get_piece 0 0 :=
  ⟨by decide,
    (set_out_of_range_no_mutation Board.create_empty 6 0 Piece.BLACK (by decide)).1,
    (set_out_of_range_no_mutation Board.create_empty 6 0 Piece.BLACK (by decide)).2 0 0⟩

/-- C7: a successful `set_piece` mutates exactly the one addressed cell:
every other coordinate reads the same through `get_piece` afterwards. -/
theorem set_frames_other_cells (b : Board) (row col : Nat) (s : Piece)
    (hr : row ≤ 5) (hc : col ≤ 5) (r c : Nat) (hne : (r, c) ≠ (row, col)) :
    ((b.set_piece row col s).2).get_piece r c = b.get_piece r c := by
  rw [set_piece_in_range b row col s (by omega)]
  by_cases hout : r > 5 ∨ c > 5
  · rw [get_piece_out_of_range _ r c hout, get_piece_out_of_range b r c hout]
  · rw [get_piece_in_range _ r c hout, get_piece_in_range b r c hout]
    have hne2 : r ≠ row ∨ c ≠ col := by
      by_contra hcon
      push_neg at hcon
      exact hne (by rw [hcon.1, hcon.2])
    have hidx : r * 6 + c ≠ row * 6 + col := by omega
    simp [hidx]

theorem set_frames_other_cells_witness :
    (2 : Nat) ≤ 5 ∧ (3 : Nat) ≤ 5 ∧ ((2, 4) : Nat × Nat) ≠ (2, 3) ∧
    ((Board.create_empty.set_piece 2 3 Piece.BLACK).2).get_piece 2 4
      = Board.create_empty.get_piece 2 4 :=
  ⟨by decide, by decide, by decide,
    set_frames_other_cells Board.create_empty 2 3 Piece.BLACK (by decide) (by decide)
      2 4 (by decide)⟩

/-! ## Claim theorem: the default board layout -/

lemma default_points_pattern :
    ∀ j < 36, Board.default.points j
      = if j % 2 = 0 then Piece.BLACK else Piece.WHITE := by decide

/-- C8: on the `default()` board, (0,0) is Black, (0,1) is White, and every
row alternates Black/White starting with Black: column parity alone decides
the colour. -/
theorem default_board_layout :
    Board.default.get_piece 0 0 = some Piece.BLACK ∧
    Board.default.get_piece 0 1 = some Piece.WHITE ∧
    ∀ r c : Nat, r ≤ 5 → c ≤ 5 →
      Board.default.get_piece r c
        = some (if c % 2 = 0 then Piece.BLACK else Piece.WHITE) := by
  refine ⟨by decide, by decide, fun r c hr hc => ?_⟩
  rw [get_piece_in_range _ r c (by omega)]
  rw [default_points_pattern (r * 6 + c) (by omega)]
  have hpar : (r * 6 + c) % 2 = c % 2 := by omega
  rw [hpar]

theorem default_board_layout_witness :
    (2 : Nat) ≤ 5 ∧ (3 : Nat) ≤ 5 ∧
    Board.default.get_piece 2 3
      = some (if 3 % 2 = 0 then Piece.BLACK else Piece.WHITE) :=
  ⟨by decide, by decide, default_board_layout.2.2 2 3 (by decide) (by decide)⟩

/-! ## Termination of the directional scans (claim C3)

The Rust loops run over the unbounded sequence `jump = 0, 2, 4, …`. On a
6-wide board the landing index leaves `[0, 5]` by `jump = 4` at the latest,
so the break fires within three iterations and any fuel of at least 3 gives
the same result as fuel 3. -/

lemma scan_vertical_big_jump (b : Board) (row col : Nat) (i : Int)
    (hi : i = 1 ∨ i = -1) (hrow : row ≤ 5) (fuel : Nat) (jump : Int)
    (hj : 4 ≤ jump) : b.scan_vertical row col i fuel jump = [] := by
  cases fuel with
  | zero => rfl
  | succ n =>
      have hbr : (row : Int) + i * jump + i * 2 < 0 ∨
          (row : Int) + i * jump + i * 2 > 5 := by
        rcases hi with rfl | rfl <;> omega
      unfold Board.scan_vertical
      rw [if_pos hbr]

lemma scan_horizontal_big_jump (b : Board) (row col : Nat) (i : Int)
    (hi : i = 1 ∨ i = -1) (hcol : col ≤ 5) (fuel : Nat) (jump : Int)
    (hj : 4 ≤ jump) : b.scan_horizontal row col i fuel jump = [] := by
  cases fuel with
  | zero => rfl
  | succ n =>
      have hbr : (col : Int) + i * jump + i * 2 < 0 ∨
          (col : Int) + i * jump + i * 2 > 5 := by
        rcases hi with rfl | rfl <;> omega
      unfold Board.scan_horizontal
      rw [if_pos hbr]

lemma scan_vertical_stable (b : Board) (row col : Nat) (i : Int)
    (hi : i = 1 ∨ i = -1) (hrow : row ≤ 5) :
    ∀ (n m : Nat) (jump : Int), 6 ≤ jump + 2 * n → 6 ≤ jump + 2 * m →
      b.scan_vertical row col i n jump = b.scan_vertical row col i m jump := by
  intro n
  induction n with
  | zero =>
      intro m jump hn hm
      rw [scan_vertical_big_jump b row col i hi hrow m jump (by omega)]
      rfl
  | succ n ih =>
      intro m jump hn hm
      cases m with
      | zero =>
          rw [scan_vertical_big_jump b row col i hi hrow (n + 1) jump (by omega)]
          rfl
      | succ m =>
          unfold Board.scan_vertical
          by_cases hbr : (row : Int) + i * jump + i * 2 < 0 ∨
              (row : Int) + i * jump + i * 2 > 5
          · rw [if_pos hbr, if_pos hbr]
          · rw [if_neg hbr, if_neg hbr]
            have hrec : b.scan_vertical row col i n (jump + 2)
                = b.scan_vertical row col i m (jump + 2) :=
              ih m (jump + 2) (by omega) (by omega)
            rcases hgp : b.get_piece (usize_cast ((row : Int) + i * jump + i)) col
              with _ | p
            · exact hrec
            · cases p with
              | EMPTY => rfl
              | WHITE => rw [hrec]
              | BLACK => rw [hrec]

lemma scan_horizontal_stable (b : Board) (row col : Nat) (i : Int)
    (hi : i = 1 ∨ i = -1) (hcol : col ≤ 5) :
    ∀ (n m : Nat) (jump : Int), 6 ≤ jump + 2 * n → 6 ≤ jump + 2 * m →
      b.scan_horizontal row col i n jump = b.scan_horizontal row col i m jump := by
  intro n
  induction n with
  | zero =>
      intro m jump hn hm
      rw [scan_horizontal_big_jump b row col i hi hcol m jump (by omega)]
      rfl
  | succ n ih =>
      intro m jump hn hm
      cases m with
      | zero =>
          rw [scan_horizontal_big_jump b row col i hi hcol (n + 1) jump (by omega)]
          rfl
      | succ m =>
          unfold Board.scan_horizontal
          by_cases hbr : (col : Int) + i * jump + i * 2 < 0 ∨
              (col : Int) + i * jump + i * 2 > 5
          · rw [if_pos hbr, if_pos hbr]
          · rw [if_neg hbr, if_neg hbr]
            have hrec : b.scan_horizontal row col i n (jump + 2)
                = b.scan_horizontal row col i m (jump + 2) :=
              ih m (jump + 2) (by omega) (by omega)
            rcases hgp : b.get_piece row (usize_cast ((col : Int) + i * jump + i))
              with _ | p
            · exact hrec
            · cases p with
              | EMPTY => rfl
              | WHITE => rw [hrec]
              | BLACK => rw [hrec]

/-- C3: `possible_moves` terminates although the Rust loops are unbounded:
on a 6-wide board each direction breaks within 3 jump-checks, so every fuel
of at least 3 computes the same value as the fuel-3 `possible_moves`. -/
theorem possible_moves_fuel_sufficient (b : Board) (row col : Nat) (fuel : Nat)
    (h : 3 ≤ fuel) :
    b.possible_movesFuel row col fuel = b.possible_moves row col := by
  unfold Board.possible_moves Board.possible_movesFuel
  cases hgp : b.get_piece row col with
  | none => rfl
  | some p =>
      obtain ⟨hr, hc⟩ := get_piece_some_bounds b row col p hgp
      rw [scan_vertical_stable b row col (-1) (Or.inr rfl) hr fuel 3 0 (by omega)
          (by omega),
        scan_vertical_stable b row col 1 (Or.inl rfl) hr fuel 3 0 (by omega) (by omega),
        scan_horizontal_stable b row col (-1) (Or.inr rfl) hc fuel 3 0 (by omega)
          (by omega),
        scan_horizontal_stable b row col 1 (Or.inl rfl) hc fuel 3 0 (by omega)
          (by omega)]

theorem possible_moves_fuel_sufficient_witness :
    (3 : Nat) ≤ 5 ∧
    scenario_c_board.possible_movesFuel 0 1 5 = scenario_c_board.possible_moves 0 1 :=
  ⟨by decide, possible_moves_fuel_sufficient scenario_c_board 0 1 5 (by decide)⟩

/-! ## Colour-blindness of the scan (claim C10)

`possible_moves` branches only on whether cells are `EMPTY`, never on
`WHITE` versus `BLACK`, so two boards with the same `EMPTY` pattern on the
36 real cells produce identical results. -/

lemma get_piece_empty_classify (b1 b2 : Board)
    (H : ∀ j, j < 36 → (b1.points j = Piece.EMPTY ↔ b2.points j = Piece.EMPTY))
    (r c : Nat) :
    (b1.get_piece r c = none ↔ b2.get_piece r c = none) ∧
    (b1.get_piece r c = some Piece.EMPTY ↔ b2.get_piece r c = some Piece.EMPTY) := by
  by_cases h : r > 5 ∨ c > 5
  · rw [get_piece_out_of_range b1 r c h, get_piece_out_of_range b2 r c h]
    exact ⟨Iff.rfl, Iff.rfl⟩
  · rw [get_piece_in_range b1 r c h, get_piece_in_range b2 r c h]
    refine ⟨by simp, ?_⟩
    have := H (r * 6 + c) (by omega)
    simpa using this

lemma scan_vertical_congr (b1 b2 : Board)
    (H : ∀ j, j < 36 → (b1.points j = Piece.EMPTY ↔ b2.points j = Piece.EMPTY))
    (row col : Nat) (i : Int) :
    ∀ (fuel : Nat) (jump : Int),
      b1.scan_vertical row col i fuel jump = b2.scan_vertical row col i fuel jump := by
  intro fuel
  induction fuel with
  | zero => intro jump; rfl
  | succ n ih =>
      intro jump
      unfold Board.scan_vertical
      by_cases hbr : (row : Int) + i * jump + i * 2 < 0 ∨
          (row : Int) + i * jump + i * 2 > 5
      · rw [if_pos hbr, if_pos hbr]
      · rw [if_neg hbr, if_neg hbr]
        rcases hgp1 : b1.get_piece (usize_cast ((row : Int) + i * jump + i)) col
          with _ | p1
        · have hgp2 : b2.get_piece (usize_cast ((row : Int) + i * jump + i)) col
              = none :=
            (get_piece_empty_classify b1 b2 H _ _).1.mp hgp1
          simp only [hgp2]
          exact ih (jump + 2)
        · rcases hgp2 : b2.get_piece (usize_cast ((row : Int) + i * jump + i)) col
            with _ | p2
          · have hn := (get_piece_empty_classify b1 b2 H _ _).1.mpr hgp2
            rw [hgp1] at hn
            simp at hn
          · have hiff :
                b1.get_piece (usize_cast ((row : Int) + i * jump + i * 2)) col
                    = some Piece.EMPTY ↔
                  b2.get_piece (usize_cast ((row : Int) + i * jump + i * 2)) col
                    = some Piece.EMPTY :=
              (get_piece_empty_classify b1 b2 H _ _).2
            cases p1 with
            | EMPTY =>
                have he := (get_piece_empty_classify b1 b2 H _ _).2.mp hgp1
                rw [hgp2] at he
                cases p2 with
                | EMPTY => rfl
                | WHITE => simp at he
                | BLACK => simp at he
            | WHITE =>
                cases p2 with
                | EMPTY =>
                    have he := (get_piece_empty_classify b1 b2 H _ _).2.mpr hgp2
                    rw [hgp1] at he
                    simp at he
                | WHITE => rw [if_congr hiff rfl rfl, ih (jump + 2)]
                | BLACK => rw [if_congr hiff rfl rfl, ih (jump + 2)]
            | BLACK =>
                cases p2 with
                | EMPTY =>
                    have he := (get_piece_empty_classify b1 b2 H _ _).2.mpr hgp2
                    rw [hgp1] at he
                    simp at he
                | WHITE => rw [if_congr hiff rfl rfl, ih (jump + 2)]
                | BLACK => rw [if_congr hiff rfl rfl, ih (jump + 2)]

lemma scan_horizontal_congr (b1 b2 : Board)
    (H : ∀ j, j < 36 → (b1.points j = Piece.EMPTY ↔ b2.points j = Piece.EMPTY))
    (row col : Nat) (i : Int) :
    ∀ (fuel : Nat) (jump : Int),
      b1.scan_horizontal row col i fuel jump = b2.scan_horizontal row col i fuel jump := by
  intro fuel
  induction fuel with
  | zero => intro jump; rfl
  | succ n ih =>
      intro jump
      unfold Board.scan_horizontal
      by_cases hbr : (col : Int) + i * jump + i * 2 < 0 ∨
          (col : Int) + i * jump + i * 2 > 5
      · rw [if_pos hbr, if_pos hbr]
      · rw [if_neg hbr, if_neg hbr]
        rcases hgp1 : b1.get_piece row (usize_cast ((col : Int) + i * jump + i))
          with _ | p1
        · have hgp2 : b2.get_piece row (usize_cast ((col : Int) + i * jump + i))
              = none :=
            (get_piece_empty_classify b1 b2 H _ _).1.mp hgp1
          simp only [hgp2]
          exact ih (jump + 2)
        · rcases hgp2 : b2.get_piece row (usize_cast ((col : Int) + i * jump + i))
            with _ | p2
          · have hn := (get_piece_empty_classify b1 b2 H _ _).1.mpr hgp2
            rw [hgp1] at hn
            simp at hn
          · have hiff :
                b1.get_piece row (usize_cast ((col : Int) + i * jump + i * 2))
                    = some Piece.EMPTY ↔
                  b2.get_piece row (usize_cast ((col : Int) + i * jump + i * 2))
                    = some Piece.EMPTY :=
              (get_piece_empty_classify b1 b2 H _ _).2
            cases p1 with
            | EMPTY =>
                have he := (get_piece_empty_classify b1 b2 H _ _).2.mp hgp1
                rw [hgp2] at he
                cases p2 with
                | EMPTY => rfl
                | WHITE => simp at he
                | BLACK => simp at he
            | WHITE =>
                cases p2 with
                | EMPTY =>
                    have he := (get_piece_empty_classify b1 b2 H _ _).2.mpr hgp2
                    rw [hgp1] at he
                    simp at he
                | WHITE => rw [if_congr hiff rfl rfl, ih (jump + 2)]
                | BLACK => rw [if_congr hiff rfl rfl, ih (jump + 2)]
            | BLACK =>
                cases p2 with
                | EMPTY =>
                    have he := (get_piece_empty_classify b1 b2 H _ _).2.mpr hgp2
                    rw [hgp1] at he
                    simp at he
                | WHITE => rw [if_congr hiff rfl rfl, ih (jump + 2)]
                | BLACK => rw [if_congr hiff rfl rfl, ih (jump + 2)]

/-- C10: two boards that agree, cell by cell, on which of the 36 positions
hold `EMPTY` get identical `possible_moves` results at every source
coordinate — the scan never inspects piece colour. -/
theorem possible_moves_color_blind (b1 b2 : Board)
    (H : ∀ j, j < 36 → (b1.points j = Piece.EMPTY ↔ b2.points j = Piece.EMPTY))
    (row col : Nat) :
    b1.possible_moves row col = b2.possible_moves row col := by
  unfold Board.possible_moves Board.possible_movesFuel
  rcases hgp1 : b1.get_piece row col with _ | p1
  · have hgp2 : b2.get_piece row col = none :=
      (get_piece_empty_classify b1 b2 H row col).1.mp hgp1
    simp only [hgp2]
  · rcases hgp2 : b2.get_piece row col with _ | p2
    · have hn := (get_piece_empty_classify b1 b2 H row col).1.mpr hgp2
      rw [hgp1] at hn
      simp at hn
    · simp only [scan_vertical_congr b1 b2 H row col (-1),
        scan_vertical_congr b1 b2 H row col 1,
        scan_horizontal_congr b1 b2 H row col (-1),
        scan_horizontal_congr b1 b2 H row col 1]

/-- Scenario C with every piece recoloured: same `EMPTY` pattern, different
colours everywhere a piece stands. -/
def scenario_c_recolored : Board :=
  ((((Board.create_empty.set_piece 0 0 Piece.WHITE).2.set_piece 0 1 Piece.BLACK).2.set_piece
      0 2 Piece.WHITE).2.set_piece 0 4 Piece.WHITE).2

theorem possible_moves_color_blind_witness :
    scenario_c_board.possible_moves 0 1 = scenario_c_recolored.possible_moves 0 1 :=
  possible_moves_color_blind scenario_c_board scenario_c_recolored (by decide) 0 1

/-! ## Bounds of every dereferenced array index (claim C9)

The only raw array accesses in the Rust source are `self.points[row*6+col]`
in `get_piece` (read) and `set_piece` (write), both behind the
`row > 5 || col > 5` guard; the scans read exclusively through `get_piece`.
The following `…_reads` functions mirror each operation and collect the
linear index of every array access it actually performs (a `get_piece` call
contributes an index only when its guard passes, since otherwise it returns
early without touching the array). -/

def get_piece_reads (row col : Nat) : List Nat :=
  if row > 5 ∨ col > 5 then [] else [row * 6 + col]

def set_piece_reads (b : Board) (row col : Nat) : List Nat :=
  get_piece_reads row col ++
    match b.get_piece row col with
    | some _ => [row * 6 + col]
    | none => []

def Board.scan_vertical_reads (b : Board) (row col : Nat) (i : Int) :
    Nat → Int → List Nat
  | 0, _ => []
  | fuel + 1, jump =>
    if (row : Int) + i * jump + i * 2 < 0 ∨ (row : Int) + i * jump + i * 2 > 5 then
      []
    else
      get_piece_reads (usize_cast ((row : Int) + i * jump + i)) col ++
        match b.get_piece (usize_cast ((row : Int) + i * jump + i)) col with
        | some Piece.EMPTY => []
        | some _ =>
            get_piece_reads (usize_cast ((row : Int) + i * jump + i * 2)) col ++
              b.scan_vertical_reads row col i fuel (jump + 2)
        | none => b.scan_vertical_reads row col i fuel (jump + 2)

def Board.scan_horizontal_reads (b : Board) (row col : Nat) (i : Int) :
    Nat → Int → List Nat
  | 0, _ => []
  | fuel + 1, jump =>
    if (col : Int) + i * jump + i * 2 < 0 ∨ (col : Int) + i * jump + i * 2 > 5 then
      []
    else
      get_piece_reads row (usize_cast ((col : Int) + i * jump + i)) ++
        match b.get_piece row (usize_cast ((col : Int) + i * jump + i)) with
        | some Piece.EMPTY => []
        | some _ =>
            get_piece_reads row (usize_cast ((col : Int) + i * jump + i * 2)) ++
              b.scan_horizontal_reads row col i fuel (jump + 2)
        | none => b.scan_horizontal_reads row col i fuel (jump + 2)

def Board.possible_moves_reads (b : Board) (row col : Nat) : List Nat :=
  get_piece_reads row col ++
    match b.get_piece row col with
    | none => []
    | some _ =>
        b.scan_vertical_reads row col (-1) 3 0 ++ b.scan_vertical_reads row col 1 3 0 ++
          b.scan_horizontal_reads row col (-1) 3 0 ++
          b.scan_horizontal_reads row col 1 3 0

lemma get_piece_reads_lt (row col j : Nat) (h : j ∈ get_piece_reads row col) :
    j < 36 := by
  unfold get_piece_reads at h
  by_cases hc : row > 5 ∨ col > 5
  · rw [if_pos hc] at h
    cases h
  · rw [if_neg hc] at h
    simp at h
    omega

lemma scan_vertical_reads_lt (b : Board) (row col : Nat) (i : Int) :
    ∀ (fuel : Nat) (jump : Int) (j : Nat),
      j ∈ b.scan_vertical_reads row col i fuel jump → j < 36 := by
  intro fuel
  induction fuel with
  | zero =>
      intro jump j h
      cases h
  | succ n ih =>
      intro jump j h
      unfold Board.scan_vertical_reads at h
      by_cases hbr : (row : Int) + i * jump + i * 2 < 0 ∨
          (row : Int) + i * jump + i * 2 > 5
      · rw [if_pos hbr] at h
        cases h
      · rw [if_neg hbr] at h
        rcases List.mem_append.mp h with h1 | h2
        · exact get_piece_reads_lt _ _ _ h1
        · rcases hgp : b.get_piece (usize_cast ((row : Int) + i * jump + i)) col
            with _ | p
          · rw [hgp] at h2
            exact ih (jump + 2) j h2
          · rw [hgp] at h2
            cases p with
            | EMPTY =>
                have h3 : j ∈ ([] : List Nat) := h2
                cases h3
            | WHITE =>
                have h3 : j ∈ get_piece_reads
                    (usize_cast ((row : Int) + i * jump + i * 2)) col ++
                    b.scan_vertical_reads row col i n (jump + 2) := h2
                rcases List.mem_append.mp h3 with h4 | h5
                · exact get_piece_reads_lt _ _ _ h4
                · exact ih (jump + 2) j h5
            | BLACK =>
                have h3 : j ∈ get_piece_reads
                    (usize_cast ((row : Int) + i * jump + i * 2)) col ++
                    b.scan_vertical_reads row col i n (jump + 2) := h2
                rcases List.mem_append.mp h3 with h4 | h5
                · exact get_piece_reads_lt _ _ _ h4
                · exact ih (jump + 2) j h5

lemma scan_horizontal_reads_lt (b : Board) (row col : Nat) (i : Int) :
    ∀ (fuel : Nat) (jump : Int) (j : Nat),
      j ∈ b.scan_horizontal_reads row col i fuel jump → j < 36 := by
  intro fuel
  induction fuel with
  | zero =>
      intro jump j h
      cases h
  | succ n ih =>
      intro jump j h
      unfold Board.scan_horizontal_reads at h
      by_cases hbr : (col : Int) + i * jump + i * 2 < 0 ∨
          (col : Int) + i * jump + i * 2 > 5
      · rw [if_pos hbr] at h
        cases h
      · rw [if_neg hbr] at h
        rcases List.mem_append.mp h with h1 | h2
        · exact get_piece_reads_lt _ _ _ h1
        · rcases hgp : b.get_piece row (usize_cast ((col : Int) + i * jump + i))
            with _ | p
          · rw [hgp] at h2
            exact ih (jump + 2) j h2
          · rw [hgp] at h2
            cases p with
            | EMPTY =>
                have h3 : j ∈ ([] : List Nat) := h2
                cases h3
            | WHITE =>
                have h3 : j ∈ get_piece_reads row
                    (usize_cast ((col : Int) + i * jump + i * 2)) ++
                    b.scan_horizontal_reads row col i n (jump + 2) := h2
                rcases List.mem_append.mp h3 with h4 | h5
                · exact get_piece_reads_lt _ _ _ h4
                · exact ih (jump + 2) j h5
            | BLACK =>
                have h3 : j ∈ get_piece_reads row
                    (usize_cast ((col : Int) + i * jump + i * 2)) ++
                    b.scan_horizontal_reads row col i n (jump + 2) := h2
                rcases List.mem_append.mp h3 with h4 | h5
                · exact get_piece_reads_lt _ _ _ h4
                · exact ih (jump + 2) j h5

/-- C9: with the `row > 5 || col > 5` guard evaluated before any index
arithmetic, every array index actually dereferenced by `get_piece`,
`set_piece` or `possible_moves` (including the intervening- and landing-cell
reads of the four directional scans) lies within `0..36`; a wrapped `as
usize` cast can never reach the array, because the guard rejects it. -/
theorem every_dereferenced_index_in_bounds (b : Board) (row col : Nat) (j : Nat) :
    (j ∈ get_piece_reads row col → j < 36) ∧
    (j ∈ set_piece_reads b row col → j < 36) ∧
    (j ∈ b.possible_moves_reads row col → j < 36) := by
  refine ⟨get_piece_reads_lt row col j, ?_, ?_⟩
  · intro h
    unfold set_piece_reads at h
    rcases List.mem_append.mp h with h1 | h2
    · exact get_piece_reads_lt _ _ _ h1
    · rcases hgp : b.get_piece row col with _ | p
      · rw [hgp] at h2
        have h3 : j ∈ ([] : List Nat) := h2
        cases h3
      · rw [hgp] at h2
        have h3 : j ∈ [row * 6 + col] := h2
        have hb := get_piece_some_bounds b row col p hgp
        simp at h3
        omega
  · intro h
    unfold Board.possible_moves_reads at h
    rcases List.mem_append.mp h with h1 | h2
    · exact get_piece_reads_lt _ _ _ h1
    · rcases hgp : b.get_piece row col with _ | p
      · rw [hgp] at h2
        have h3 : j ∈ ([] : List Nat) := h2
        cases h3
      · rw [hgp] at h2
        have h3 : j ∈ b.scan_vertical_reads row col (-1) 3 0 ++
            b.scan_vertical_reads row col 1 3 0 ++
            b.scan_horizontal_reads row col (-1) 3 0 ++
            b.scan_horizontal_reads row col 1 3 0 := h2
        rcases List.mem_append.mp h3 with h4 | h5
        · rcases List.mem_append.mp h4 with h6 | h7
          · rcases List.mem_append.mp h6 with h8 | h9
            · exact scan_vertical_reads_lt b row col (-1) 3 0 j h8
            · exact scan_vertical_reads_lt b row col 1 3 0 j h9
          · exact scan_horizontal_reads_lt b row col (-1) 3 0 j h7
        · exact scan_horizontal_reads_lt b row col 1 3 0 j h5

theorem every_dereferenced_index_in_bounds_witness :
    (1 : Nat) ∈ get_piece_reads 0 1 ∧ (1 : Nat) < 36 :=
  ⟨by decide, (every_dereferenced_index_in_bounds scenario_c_board 0 1 1).1 (by decide)⟩

/-! ## The spec's directional scan (claim C1)

`spec_scan` follows the words of spec §4.2, not the source: the direction is
a unit step `(dr, dc)`; at increment `k` the intervening cell sits at offset
`k + 1` and the landing cell at offset `k + 2` from the source; the
direction stops when the intervening or landing index would leave the 0–5
range, and stops when the intervening cell is Empty; the landing
coordinates are recorded when the intervening cell is non-Empty and the
landing cell is Empty; the scan then continues at `k + 2`. Cells are read at
the row-major index of §3. -/

def spec_scan (b : Board) (row col : Nat) (dr dc : Int) :
    Nat → Int → List (Nat × Nat)
  | 0, _ => []
  | fuel + 1, k =>
    if (row : Int) + (k + 1) * dr < 0 ∨ (row : Int) + (k + 1) * dr > 5 ∨
        (col : Int) + (k + 1) * dc < 0 ∨ (col : Int) + (k + 1) * dc > 5 ∨
        (row : Int) + (k + 2) * dr < 0 ∨ (row : Int) + (k + 2) * dr > 5 ∨
        (col : Int) + (k + 2) * dc < 0 ∨ (col : Int) + (k + 2) * dc > 5 then
      []
    else
      match b.points ((((row : Int) + (k + 1) * dr).toNat) * 6 +
          ((col : Int) + (k + 1) * dc).toNat) with
      | Piece.EMPTY => []
      | _ =>
          (if b.points ((((row : Int) + (k + 2) * dr).toNat) * 6 +
              ((col : Int) + (k + 2) * dc).toNat) = Piece.EMPTY then
            [(((row : Int) + (k + 2) * dr).toNat, ((col : Int) + (k + 2) * dc).toNat)]
          else []) ++ spec_scan b row col dr dc fuel (k + 2)

/-- The spec's output: the recorded destinations of the four directional
scans in the order vertical-decreasing, vertical-increasing,
horizontal-decreasing, horizontal-increasing. -/
def spec_possible_moves (b : Board) (row col : Nat) : List (Nat × Nat) :=
  spec_scan b row col (-1) 0 3 0 ++ spec_scan b row col 1 0 3 0 ++
    spec_scan b row col 0 (-1) 3 0 ++ spec_scan b row col 0 1 3 0

lemma usize_cast_small (x : Int) (h0 : 0 ≤ x) (h5 : x ≤ 5) :
    usize_cast x = x.toNat := by
  unfold usize_cast
  omega

lemma scan_vertical_eq_spec (b : Board) (row col : Nat) (i : Int)
    (hi : i = 1 ∨ i = -1) (hc : col ≤ 5) :
    ∀ (fuel : Nat) (k : Int), 0 ≤ (row : Int) + i * k → (row : Int) + i * k ≤ 5 →
      b.scan_vertical row col i fuel k = spec_scan b row col i 0 fuel k := by
  rcases hi with rfl | rfl
  · intro fuel
    induction fuel with
    | zero =>
        intro k h0 h5
        rfl
    | succ n ih =>
        intro k h0 h5
        unfold Board.scan_vertical spec_scan
        by_cases hbr : (row : Int) + 1 * k + 1 * 2 < 0 ∨ (row : Int) + 1 * k + 1 * 2 > 5
        · have hs : (row : Int) + (k + 1) * 1 < 0 ∨ (row : Int) + (k + 1) * 1 > 5 ∨
              (col : Int) + (k + 1) * 0 < 0 ∨ (col : Int) + (k + 1) * 0 > 5 ∨
              (row : Int) + (k + 2) * 1 < 0 ∨ (row : Int) + (k + 2) * 1 > 5 ∨
              (col : Int) + (k + 2) * 0 < 0 ∨ (col : Int) + (k + 2) * 0 > 5 := by
            omega
          rw [if_pos hbr, if_pos hs]
        · have hs : ¬((row : Int) + (k + 1) * 1 < 0 ∨ (row : Int) + (k + 1) * 1 > 5 ∨
              (col : Int) + (k + 1) * 0 < 0 ∨ (col : Int) + (k + 1) * 0 > 5 ∨
              (row : Int) + (k + 2) * 1 < 0 ∨ (row : Int) + (k + 2) * 1 > 5 ∨
              (col : Int) + (k + 2) * 0 < 0 ∨ (col : Int) + (k + 2) * 0 > 5) := by
            omega
          rw [if_neg hbr, if_neg hs]
          rw [usize_cast_small ((row : Int) + 1 * k + 1) (by omega) (by omega)]
          rw [usize_cast_small ((row : Int) + 1 * k + 1 * 2) (by omega) (by omega)]
          rw [get_piece_in_range b (((row : Int) + 1 * k + 1).toNat) col (by omega)]
          rw [get_piece_in_range b (((row : Int) + 1 * k + 1 * 2).toNat) col (by omega)]
          simp only [Option.some.injEq]
          rw [show ((row : Int) + (k + 1) * 1).toNat = ((row : Int) + 1 * k + 1).toNat
            from by omega]
          rw [show ((col : Int) + (k + 1) * 0).toNat = col from by omega]
          rw [show ((row : Int) + (k + 2) * 1).toNat = ((row : Int) + 1 * k + 1 * 2).toNat
            from by omega]
          rw [show ((col : Int) + (k + 2) * 0).toNat = col from by omega]
          cases hp : b.points ((((row : Int) + 1 * k + 1).toNat) * 6 + col) with
          | EMPTY => rfl
          | WHITE => rw [ih (k + 2) (by omega) (by omega)]
          | BLACK => rw [ih (k + 2) (by omega) (by omega)]
  · intro fuel
    induction fuel with
    | zero =>
        intro k h0 h5
        rfl
    | succ n ih =>
        intro k h0 h5
        unfold Board.scan_vertical spec_scan
        by_cases hbr : (row : Int) + -1 * k + -1 * 2 < 0 ∨
            (row : Int) + -1 * k + -1 * 2 > 5
        · have hs : (row : Int) + (k + 1) * -1 < 0 ∨ (row : Int) + (k + 1) * -1 > 5 ∨
              (col : Int) + (k + 1) * 0 < 0 ∨ (col : Int) + (k + 1) * 0 > 5 ∨
              (row : Int) + (k + 2) * -1 < 0 ∨ (row : Int) + (k + 2) * -1 > 5 ∨
              (col : Int) + (k + 2) * 0 < 0 ∨ (col : Int) + (k + 2) * 0 > 5 := by
            omega
          rw [if_pos hbr, if_pos hs]
        · have hs : ¬((row : Int) + (k + 1) * -1 < 0 ∨ (row : Int) + (k + 1) * -1 > 5 ∨
              (col : Int) + (k + 1) * 0 < 0 ∨ (col : Int) + (k + 1) * 0 > 5 ∨
              (row : Int) + (k + 2) * -1 < 0 ∨ (row : Int) + (k + 2) * -1 > 5 ∨
              (col : Int) + (k + 2) * 0 < 0 ∨ (col : Int) + (k + 2) * 0 > 5) := by
            omega
          rw [if_neg hbr, if_neg hs]
          rw [usize_cast_small ((row : Int) + -1 * k + -1) (by omega) (by omega)]
          rw [usize_cast_small ((row : Int) + -1 * k + -1 * 2) (by omega) (by omega)]
          rw [get_piece_in_range b (((row : Int) + -1 * k + -1).toNat) col (by omega)]
          rw [get_piece_in_range b (((row : Int) + -1 * k + -1 * 2).toNat) col (by omega)]
          simp only [Option.some.injEq]
          rw [show ((row : Int) + (k + 1) * -1).toNat = ((row : Int) + -1 * k + -1).toNat
            from by omega]
          rw [show ((col : Int) + (k + 1) * 0).toNat = col from by omega]
          rw [show ((row : Int) + (k + 2) * -1).toNat
              = ((row : Int) + -1 * k + -1 * 2).toNat from by omega]
          rw [show ((col : Int) + (k + 2) * 0).toNat = col from by omega]
          cases hp : b.points ((((row : Int) + -1 * k + -1).toNat) * 6 + col) with
          | EMPTY => rfl
          | WHITE => rw [ih (k + 2) (by omega) (by omega)]
          | BLACK => rw [ih (k + 2) (by omega) (by omega)]

lemma scan_horizontal_eq_spec (b : Board) (row col : Nat) (i : Int)
    (hi : i = 1 ∨ i = -1) (hr : row ≤ 5) :
    ∀ (fuel : Nat) (k : Int), 0 ≤ (col : Int) + i * k → (col : Int) + i * k ≤ 5 →
      b.scan_horizontal row col i fuel k = spec_scan b row col 0 i fuel k := by
  rcases hi with rfl | rfl
  · intro fuel
    induction fuel with
    | zero =>
        intro k h0 h5
        rfl
    | succ n ih =>
        intro k h0 h5
        unfold Board.scan_horizontal spec_scan
        by_cases hbr : (col : Int) + 1 * k + 1 * 2 < 0 ∨ (col : Int) + 1 * k + 1 * 2 > 5
        · have hs : (row : Int) + (k + 1) * 0 < 0 ∨ (row : Int) + (k + 1) * 0 > 5 ∨
              (col : Int) + (k + 1) * 1 < 0 ∨ (col : Int) + (k + 1) * 1 > 5 ∨
              (row : Int) + (k + 2) * 0 < 0 ∨ (row : Int) + (k + 2) * 0 > 5 ∨
              (col : Int) + (k + 2) * 1 < 0 ∨ (col : Int) + (k + 2) * 1 > 5 := by
            omega
          rw [if_pos hbr, if_pos hs]
        · have hs : ¬((row : Int) + (k + 1) * 0 < 0 ∨ (row : Int) + (k + 1) * 0 > 5 ∨
              (col : Int) + (k + 1) * 1 < 0 ∨ (col : Int) + (k + 1) * 1 > 5 ∨
              (row : Int) + (k + 2) * 0 < 0 ∨ (row : Int) + (k + 2) * 0 > 5 ∨
              (col : Int) + (k + 2) * 1 < 0 ∨ (col : Int) + (k + 2) * 1 > 5) := by
            omega
          rw [if_neg hbr, if_neg hs]
          rw [usize_cast_small ((col : Int) + 1 * k + 1) (by omega) (by omega)]
          rw [usize_cast_small ((col : Int) + 1 * k + 1 * 2) (by omega) (by omega)]
          rw [get_piece_in_range b row (((col : Int) + 1 * k + 1).toNat) (by omega)]
          rw [get_piece_in_range b row (((col : Int) + 1 * k + 1 * 2).toNat) (by omega)]
          simp only [Option.some.injEq]
          rw [show ((col : Int) + (k + 1) * 1).toNat = ((col : Int) + 1 * k + 1).toNat
            from by omega]
          rw [show ((row : Int) + (k + 1) * 0).toNat = row from by omega]
          rw [show ((col : Int) + (k + 2) * 1).toNat = ((col : Int) + 1 * k + 1 * 2).toNat
            from by omega]
          rw [show ((row : Int) + (k + 2) * 0).toNat = row from by omega]
          cases hp : b.points (row * 6 + (((col : Int) + 1 * k + 1).toNat)) with
          | EMPTY => rfl
          | WHITE => rw [ih (k + 2) (by omega) (by omega)]
          | BLACK => rw [ih (k + 2) (by omega) (by omega)]
  · intro fuel
    induction fuel with
    | zero =>
        intro k h0 h5
        rfl
    | succ n ih =>
        intro k h0 h5
        unfold Board.scan_horizontal spec_scan
        by_cases hbr : (col : Int) + -1 * k + -1 * 2 < 0 ∨
            (col : Int) + -1 * k + -1 * 2 > 5
        · have hs : (row : Int) + (k + 1) * 0 < 0 ∨ (row : Int) + (k + 1) * 0 > 5 ∨
              (col : Int) + (k + 1) * -1 < 0 ∨ (col : Int) + (k + 1) * -1 > 5 ∨
              (row : Int) + (k + 2) * 0 < 0 ∨ (row : Int) + (k + 2) * 0 > 5 ∨
              (col : Int) + (k + 2) * -1 < 0 ∨ (col : Int) + (k + 2) * -1 > 5 := by
            omega
          rw [if_pos hbr, if_pos hs]
        · have hs : ¬((row : Int) + (k + 1) * 0 < 0 ∨ (row : Int) + (k + 1) * 0 > 5 ∨
              (col : Int) + (k + 1) * -1 < 0 ∨ (col : Int) + (k + 1) * -1 > 5 ∨
              (row : Int) + (k + 2) * 0 < 0 ∨ (row : Int) + (k + 2) * 0 > 5 ∨
              (col : Int) + (k + 2) * -1 < 0 ∨ (col : Int) + (k + 2) * -1 > 5) := by
            omega
          rw [if_neg hbr, if_neg hs]
          rw [usize_cast_small ((col : Int) + -1 * k + -1) (by omega) (by omega)]
          rw [usize_cast_small ((col : Int) + -1 * k + -1 * 2) (by omega) (by omega)]
          rw [get_piece_in_range b row (((col : Int) + -1 * k + -1).toNat) (by omega)]
          rw [get_piece_in_range b row (((col : Int) + -1 * k + -1 * 2).toNat) (by omega)]
          simp only [Option.some.injEq]
          rw [show ((col : Int) + (k + 1) * -1).toNat = ((col : Int) + -1 * k + -1).toNat
            from by omega]
          rw [show ((row : Int) + (k + 1) * 0).toNat = row from by omega]
          rw [show ((col : Int) + (k + 2) * -1).toNat
              = ((col : Int) + -1 * k + -1 * 2).toNat from by omega]
          rw [show ((row : Int) + (k + 2) * 0).toNat = row from by omega]
          cases hp : b.points (row * 6 + (((col : Int) + -1 * k + -1).toNat)) with
          | EMPTY => rfl
          | WHITE => rw [ih (k + 2) (by omega) (by omega)]
          | BLACK => rw [ih (k + 2) (by omega) (by omega)]

/-- C1: for every board and in-range source, `possible_moves` returns `some`
of exactly the spec's directional-scan output, in the spec's direction order
(vertical-decreasing, vertical-increasing, horizontal-decreasing,
horizontal-increasing) and, within a direction, by increasing distance. -/
theorem possible_moves_matches_spec (b : Board) (row col : Nat)
    (hr : row ≤ 5) (hc : col ≤ 5) :
    b.possible_moves row col = some (spec_possible_moves b row col) := by
  unfold Board.possible_moves Board.possible_movesFuel spec_possible_moves
  rw [get_piece_in_range b row col (by omega)]
  rw [scan_vertical_eq_spec b row col (-1) (Or.inr rfl) hc 3 0 (by omega) (by omega),
    scan_vertical_eq_spec b row col 1 (Or.inl rfl) hc 3 0 (by omega) (by omega),
    scan_horizontal_eq_spec b row col (-1) (Or.inr rfl) hr 3 0 (by omega) (by omega),
    scan_horizontal_eq_spec b row col 1 (Or.inl rfl) hr 3 0 (by omega) (by omega)]

theorem possible_moves_matches_spec_witness :
    (0 : Nat) ≤ 5 ∧ (1 : Nat) ≤ 5 ∧
    scenario_c_board.possible_moves 0 1
      = some (spec_possible_moves scenario_c_board 0 1) :=
  ⟨by decide, by decide, possible_moves_matches_spec scenario_c_board 0 1 (by decide)
    (by decide)⟩

/-! ## Fuel-invariance of the spec's scan

`spec_possible_moves` runs each direction with fuel 3, while the spec's scan
is written over the unbounded increment sequence. The next two lemmas show
no destination is lost to the truncation: for an in-range source the spec's
range check stops every direction by `k = 4`, so any fuel of at least 3
produces the same list. -/

lemma spec_scan_big_jump (b : Board) (row col : Nat) (dr dc : Int)
    (hd : (dr = 1 ∧ dc = 0) ∨ (dr = -1 ∧ dc = 0) ∨ (dr = 0 ∧ dc = 1) ∨
      (dr = 0 ∧ dc = -1))
    (hr : row ≤ 5) (hc : col ≤ 5) (fuel : Nat) (k : Int) (hk : 4 ≤ k) :
    spec_scan b row col dr dc fuel k = [] := by
  cases fuel with
  | zero => rfl
  | succ n =>
      have hs : (row : Int) + (k + 1) * dr < 0 ∨ (row : Int) + (k + 1) * dr > 5 ∨
          (col : Int) + (k + 1) * dc < 0 ∨ (col : Int) + (k + 1) * dc > 5 ∨
          (row : Int) + (k + 2) * dr < 0 ∨ (row : Int) + (k + 2) * dr > 5 ∨
          (col : Int) + (k + 2) * dc < 0 ∨ (col : Int) + (k + 2) * dc > 5 := by
        rcases hd with ⟨rfl, rfl⟩ | ⟨rfl, rfl⟩ | ⟨rfl, rfl⟩ | ⟨rfl, rfl⟩ <;> omega
      unfold spec_scan
      rw [if_pos hs]

lemma spec_scan_stable (b : Board) (row col : Nat) (dr dc : Int)
    (hd : (dr = 1 ∧ dc = 0) ∨ (dr = -1 ∧ dc = 0) ∨ (dr = 0 ∧ dc = 1) ∨
      (dr = 0 ∧ dc = -1))
    (hr : row ≤ 5) (hc : col ≤ 5) :
    ∀ (n m : Nat) (k : Int), 6 ≤ k + 2 * n → 6 ≤ k + 2 * m →
      spec_scan b row col dr dc n k = spec_scan b row col dr dc m k := by
  intro n
  induction n with
  | zero =>
      intro m k hn hm
      rw [spec_scan_big_jump b row col dr dc hd hr hc m k (by omega)]
      rfl
  | succ n ih =>
      intro m k hn hm
      cases m with
      | zero =>
          rw [spec_scan_big_jump b row col dr dc hd hr hc (n + 1) k (by omega)]
          rfl
      | succ m =>
          unfold spec_scan
          by_cases hs : (row : Int) + (k + 1) * dr < 0 ∨ (row : Int) + (k + 1) * dr > 5 ∨
              (col : Int) + (k + 1) * dc < 0 ∨ (col : Int) + (k + 1) * dc > 5 ∨
              (row : Int) + (k + 2) * dr < 0 ∨ (row : Int) + (k + 2) * dr > 5 ∨
              (col : Int) + (k + 2) * dc < 0 ∨ (col : Int) + (k + 2) * dc > 5
          · rw [if_pos hs, if_pos hs]
          · rw [if_neg hs, if_neg hs]
            have hrec : spec_scan b row col dr dc n (k + 2)
                = spec_scan b row col dr dc m (k + 2) :=
              ih m (k + 2) (by omega) (by omega)
            cases hp : b.points ((((row : Int) + (k + 1) * dr).toNat) * 6 +
                ((col : Int) + (k + 1) * dc).toNat) with
            | EMPTY => rfl
            | WHITE => rw [hrec]
            | BLACK => rw [hrec]
